import Mathlib

/-!
Verification development for the GenBoil task runner
(src/index.js, src/git-handler.js, src/logger.js).

The JSON-like values the runner manipulates (the configuration document,
task `params`, git configuration) are modelled by the mutually inductive
family `JValue` / `JItems` / `JFields` (a value, an ordered sequence of
values, an ordered sequence of key/value members); JSON numbers are
modelled as integers (no claim depends on float formatting).  Property
lookup models the own data properties of JSON-derived JavaScript values
(object members, array elements, the `length` of arrays and strings,
character access on strings); properties inherited from prototypes are
outside the model.  Object keys are assumed unique, as produced by JSON
parsing; member lookup takes the first match.
-/

namespace GenBoil

mutual

/-- JSON-like runtime values. -/
inductive JValue where
  | str (s : String)
  | num (n : Int)
  | bool (b : Bool)
  | null
  | arr (xs : JItems)
  | obj (kvs : JFields)

/-- The ordered elements of a JSON array. -/
inductive JItems where
  | nil
  | cons (head : JValue) (tail : JItems)

/-- The ordered members of a JSON object. -/
inductive JFields where
  | nil
  | cons (key : String) (value : JValue) (tail : JFields)

end

/-- First-match member lookup, the access `kvs[key]` on an object with
unique keys. -/
def JFields.lookup : JFields → String → Option JValue
  | .nil, _ => none
  | .cons k v rest, key => if k = key then some v else JFields.lookup rest key

/-- Element access `xs[n]` on an array. -/
def JItems.get? : JItems → Nat → Option JValue
  | .nil, _ => none
  | .cons x _, 0 => some x
  | .cons _ xs, n + 1 => JItems.get? xs n

/-- The number of elements of an array. -/
def JItems.length : JItems → Nat
  | .nil => 0
  | .cons _ xs => JItems.length xs + 1

/-- JavaScript falsiness restricted to the values of `JValue`:
`""`, `0`, `false` and `null` are falsy; arrays and objects are always
truthy. -/
def jsFalsy : JValue → Bool
  | .str s => s = ""
  | .num n => n = 0
  | .bool b => !b
  | .null => true
  | .arr _ => false
  | .obj _ => false

mutual

/-- JavaScript string conversion (`String(v)`): arrays join their
elements with `","` (with `null` elements rendered as `""`, as
`Array.prototype.join` does), plain objects render as
`"[object Object]"`. -/
def jsToString : JValue → String
  | .str s => s
  | .num n => toString n
  | .bool b => if b then "true" else "false"
  | .null => "null"
  | .arr xs => String.intercalate "," (jsElems xs)
  | .obj _ => "[object Object]"

/-- Element conversion used by `Array.prototype.join`. -/
def jsElems : JItems → List String
  | .nil => []
  | .cons .null rest => "" :: jsElems rest
  | .cons v rest => jsToString v :: jsElems rest

end

/-- `s.split(sep)` for a single-character separator on the characters of
a string: splits at every occurrence, keeping empty chunks (as
`String.prototype.split` does). -/
def splitOnChar (sep : Char) : List Char → List (List Char)
  | [] => [[]]
  | c :: cs =>
      if c = sep then [] :: splitOnChar sep cs
      else
        match splitOnChar sep cs with
        | [] => [[c]]
        | p :: ps => (c :: p) :: ps

/-- `path.split('.')`. -/
def splitDot (cs : List Char) : List (List Char) :=
  splitOnChar '.' cs

/-- The whitespace characters removed by `String.prototype.trim`
(ASCII whitespace, NBSP, the common Unicode spaces, line and paragraph
separators, BOM). -/
def isJsSpace (c : Char) : Bool :=
  c = ' ' || c = '\t' || c = '\n' || c = '\r' ||
  c = Char.ofNat 0x0b || c = Char.ofNat 0x0c || c = Char.ofNat 0xa0 ||
  c = Char.ofNat 0x1680 ||
  (Char.ofNat 0x2000 ≤ c && c ≤ Char.ofNat 0x200a) ||
  c = Char.ofNat 0x2028 || c = Char.ofNat 0x2029 ||
  c = Char.ofNat 0x202f || c = Char.ofNat 0x205f ||
  c = Char.ofNat 0x3000 || c = Char.ofNat 0xfeff

/-- `key.trim()` on a character list: drop whitespace from both ends. -/
def trimChars (cs : List Char) : List Char :=
  ((cs.dropWhile isJsSpace).reverse.dropWhile isJsSpace).reverse

/-- The numeric value of a digit-only character list (`none` when empty
or containing a non-digit). -/
def decimalVal : List Char → Option Nat
  | [] => none
  | cs => cs.foldl (fun acc c =>
      match acc with
      | none => none
      | some n => if c.isDigit then some (n * 10 + (c.toNat - '0'.toNat)) else none)
      (some 0)

/-- A character list that is the canonical decimal representation of a
natural number (the array/string indices JavaScript recognises): digits
only, no leading zero except `"0"` itself. -/
def canonIndex (key : List Char) : Option Nat :=
  match decimalVal key with
  | some n => if key.head? = some '0' ∧ key ≠ ['0'] then none else some n
  | none => none

/-- One JavaScript own-property access `v[key]` on a JSON-derived value
(`undefined` is `none`). -/
def getProp : JValue → String → Option JValue
  | .obj kvs, key => kvs.lookup key
  | .arr xs, key =>
      if key = "length" then some (.num xs.length)
      else match canonIndex key.data with
        | some n => xs.get? n
        | none => none
  | .str s, key =>
      if key = "length" then some (.num s.data.length)
      else match canonIndex key.data with
        | some n => (s.data.get? n).map (fun c => .str (String.mk [c]))
        | none => none
  | _, _ => none

/-- One step of the `reduce` in `lookupProperty`:
`(o, key) => (o && o[key] !== undefined ? o[key] : undefined)`.
A falsy accumulator short-circuits to `undefined`. -/
def lookupStep (o : Option JValue) (key : String) : Option JValue :=
  match o with
  | none => none
  | some v => if jsFalsy v then none else getProp v key

/-- `lookupProperty(obj, path)` from src/index.js: split the path on `'.'`
and walk the object by successive key lookups. -/
def lookupProperty (obj : JValue) (path : String) : Option JValue :=
  ((splitDot path.data).map String.mk).foldl lookupStep (some obj)

/-- The characters matched by `.` in a JavaScript regular expression
(anything but a line terminator). -/
def isDotChar (c : Char) : Bool :=
  c ≠ '\n' && c ≠ '\r' && c ≠ Char.ofNat 0x2028 && c ≠ Char.ofNat 0x2029

/-- Scan for the closing `'}'` of a placeholder body: succeeds when a
`'}'` is reached through `.`-matchable characters, returning the
characters before it and the rest of the input after it. -/
def findClose : List Char → Option (List Char × List Char)
  | [] => none
  | c :: cs =>
      if c = '}' then some ([], cs)
      else if isDotChar c then
        match findClose cs with
        | some (b, r) => some (c :: b, r)
        | none => none
      else none

/-- The lazy body match of `/\$\{(.+?)\}/`: at least one `.`-matchable
character, then the first `'}'`.  Returns the body and the input
remaining after the closing brace. -/
def scanBody : List Char → Option (List Char × List Char)
  | [] => none
  | c :: cs =>
      if isDotChar c then
        match findClose cs with
        | some (b, r) => some (c :: b, r)
        | none => none
      else none

/-- The replacement for one matched placeholder body: the looked-up
value's string representation when the (trimmed) dotted path resolves,
otherwise the original matched text including its delimiters. -/
def resolveKey (config : JValue) (body : List Char) : List Char :=
  match lookupProperty config (String.mk (trimChars body)) with
  | some v => (jsToString v).data
  | none => '$' :: '{' :: (body ++ ['}'])

theorem findClose_length {cs b r : List Char} (h : findClose cs = some (b, r)) :
    r.length < cs.length := by
  induction cs generalizing b r with
  | nil => simp [findClose] at h
  | cons c cs ih =>
    simp only [findClose] at h
    by_cases hc : c = '}'
    · simp [hc] at h
      simp [← h.2]
    · simp only [hc, if_false] at h
      by_cases hd : isDotChar c
      · simp only [hd, if_true] at h
        cases hfc : findClose cs with
        | none => rw [hfc] at h; simp at h
        | some p =>
          rw [hfc] at h
          cases p with
          | mk b0 r0 =>
            simp at h
            have := ih hfc
            simp [← h.2]
            omega
      · simp [hd] at h

theorem scanBody_length {cs b r : List Char} (h : scanBody cs = some (b, r)) :
    r.length < cs.length := by
  cases cs with
  | nil => simp [scanBody] at h
  | cons c cs =>
    simp only [scanBody] at h
    by_cases hd : isDotChar c
    · simp only [hd, if_true] at h
      cases hfc : findClose cs with
      | none => rw [hfc] at h; simp at h
      | some p =>
        rw [hfc] at h
        cases p with
        | mk b0 r0 =>
          simp at h
          have := findClose_length hfc
          simp [← h.2]
          omega
    · simp [hd] at h

/-- The global-replace loop of
`data.replace(/\$\{(.+?)\}/g, (match, key) => ...)` over the characters
of the subject string: when the pattern matches at the current position
(a `'$'` followed by `'{'` and a lazily-closed body) the replacement is
emitted and scanning resumes after the match; otherwise the scan
advances one character.  The fuel argument only bounds the recursion:
every step consumes at least one input character, so fuel equal to the
input length (as supplied by `replaceList`) is never exhausted. -/
def replaceFuel (config : JValue) : Nat → List Char → List Char
  | 0, cs => cs
  | _ + 1, [] => []
  | fuel + 1, c :: cs =>
      if c = '$' ∧ cs.head? = some '{' then
        match scanBody cs.tail with
        | some (body, rest') => resolveKey config body ++ replaceFuel config fuel rest'
        | none => c :: replaceFuel config fuel cs
      else c :: replaceFuel config fuel cs

/-- The whole global replace over a character list. -/
def replaceList (config : JValue) (cs : List Char) : List Char :=
  replaceFuel config cs.length cs

/-- Placeholder substitution on one string. -/
def replaceTemplates (s : String) (config : JValue) : String :=
  String.mk (replaceList config s.data)

mutual

/-- `resolveParams(data, config)` from src/index.js: strings get their
placeholders substituted, arrays and objects are rebuilt with every
member resolved recursively, everything else passes through.  (The
configuration is the leading parameter so that the recursion is
structural; the source passes it second.) -/
def resolveParams (config : JValue) : JValue → JValue
  | .str s => .str (replaceTemplates s config)
  | .arr xs => .arr (resolveItems config xs)
  | .obj kvs => .obj (resolveFields config kvs)
  | v => v

/-- Element-wise resolution of an array
(`data.map(item => resolveParams(item, config))`). -/
def resolveItems (config : JValue) : JItems → JItems
  | .nil => .nil
  | .cons x xs => .cons (resolveParams config x) (resolveItems config xs)

/-- Member-wise resolution of an object
(`newObj[key] = resolveParams(data[key], config)`); keys are never
transformed. -/
def resolveFields (config : JValue) : JFields → JFields
  | .nil => .nil
  | .cons k v rest => .cons k (resolveParams config v) (resolveFields config rest)

end

theorem replaceFuel_congr (config : JValue) :
    ∀ f₁ : Nat, ∀ cs : List Char, ∀ f₂ : Nat, cs.length ≤ f₁ → cs.length ≤ f₂ →
      replaceFuel config f₁ cs = replaceFuel config f₂ cs := by
  intro f₁
  induction f₁ with
  | zero =>
    intro cs f₂ h1 _
    have : cs = [] := List.eq_nil_of_length_eq_zero (by omega)
    subst this
    cases f₂ <;> rfl
  | succ f ih =>
    intro cs f₂ h1 h2
    cases cs with
    | nil => cases f₂ <;> rfl
    | cons c cs' =>
      simp only [List.length_cons] at h1 h2
      obtain ⟨f₂', rfl⟩ : ∃ k, f₂ = k + 1 := ⟨f₂ - 1, by omega⟩
      simp only [replaceFuel]
      by_cases hm : c = '$' ∧ cs'.head? = some '{'
      · rw [if_pos hm, if_pos hm]
        cases hsb : scanBody cs'.tail with
        | none =>
          simp only [hsb]
          rw [ih cs' f₂' (by omega) (by omega)]
        | some p =>
          obtain ⟨body, rest'⟩ := p
          have hlt : rest'.length < cs'.tail.length := scanBody_length hsb
          have htl : cs'.tail.length ≤ cs'.length := by
            cases cs' <;> simp
          simp only [hsb]
          rw [ih rest' f₂' (by omega) (by omega)]
      · rw [if_neg hm, if_neg hm, ih cs' f₂' (by omega) (by omega)]

/-- Unfolding: the scan of the empty string is empty. -/
theorem replaceList_nil (config : JValue) : replaceList config [] = [] := rfl

/-- Unfolding: at a position where the placeholder pattern does not
match, the character is copied and scanning advances by one. -/
theorem replaceList_cons (config : JValue) (c : Char) (cs : List Char)
    (hm : ¬(c = '$' ∧ cs.head? = some '{')) :
    replaceList config (c :: cs) = c :: replaceList config cs := by
  simp only [replaceList, List.length_cons, replaceFuel]
  rw [if_neg hm]

/-- Unfolding: at a matched placeholder the replacement is emitted and
scanning resumes after the closing brace. -/
theorem replaceList_match (config : JValue) (rest body rest' : List Char)
    (hsb : scanBody rest = some (body, rest')) :
    replaceList config ('$' :: '{' :: rest) =
      resolveKey config body ++ replaceList config rest' := by
  have h1 : replaceList config ('$' :: '{' :: rest) =
      resolveKey config body ++ replaceFuel config (rest.length + 1) rest' := by
    simp [replaceList, replaceFuel, hsb]
  have hlt : rest'.length < rest.length := scanBody_length hsb
  rw [h1, replaceFuel_congr config (rest.length + 1) rest' rest'.length (by omega) (by omega)]
  rfl

/-- Unfolding: a `"${"` with no lazily-closable body is not a match;
the `'$'` is copied and scanning advances by one. -/
theorem replaceList_nomatch (config : JValue) (rest : List Char)
    (hsb : scanBody rest = none) :
    replaceList config ('$' :: '{' :: rest) = '$' :: replaceList config ('{' :: rest) := by
  simp [replaceList, replaceFuel, hsb]

theorem findClose_exact (key rest : List Char)
    (hdot : ∀ c ∈ key, isDotChar c = true) (hcl : '}' ∉ key) :
    findClose (key ++ '}' :: rest) = some (key, rest) := by
  induction key with
  | nil => simp [findClose]
  | cons c ks ih =>
    have hc : c ≠ '}' := by
      intro h
      exact hcl (h ▸ List.mem_cons_self c ks)
    have hd : isDotChar c = true := hdot c (List.mem_cons_self c ks)
    have hks : findClose (ks ++ '}' :: rest) = some (ks, rest) :=
      ih (fun x hx => hdot x (List.mem_cons_of_mem c hx))
        (fun hx => hcl (List.mem_cons_of_mem c hx))
    simp [findClose, hc, hd, hks]

theorem scanBody_exact (key rest : List Char) (hne : key ≠ [])
    (hdot : ∀ c ∈ key, isDotChar c = true) (hcl : '}' ∉ key) :
    scanBody (key ++ '}' :: rest) = some (key, rest) := by
  cases key with
  | nil => exact absurd rfl hne
  | cons k ks =>
    have hd : isDotChar k = true := hdot k (List.mem_cons_self k ks)
    have hks : findClose (ks ++ '}' :: rest) = some (ks, rest) :=
      findClose_exact ks rest (fun x hx => hdot x (List.mem_cons_of_mem k hx))
        (fun hx => hcl (List.mem_cons_of_mem k hx))
    simp [scanBody, hd, hks]

/-- The configuration `{x: {y: "Z"}}` of the spec's concrete resolution
example. -/
def exampleConfig : JValue :=
  .obj (.cons "x" (.obj (.cons "y" (.str "Z") .nil)) .nil)

/-- The params value `{"a": "${x.y}", "b": [1, "${missing.path}"]}` of
the spec's concrete resolution example. -/
def exampleInput : JValue :=
  .obj (.cons "a" (.str "${x.y}")
    (.cons "b" (.arr (.cons (.num 1) (.cons (.str "${missing.path}") .nil))) .nil))

/-- The expected result `{"a": "Z", "b": [1, "${missing.path}"]}` of the
spec's concrete resolution example. -/
def exampleOutput : JValue :=
  .obj (.cons "a" (.str "Z")
    (.cons "b" (.arr (.cons (.num 1) (.cons (.str "${missing.path}") .nil))) .nil))

/-- C1: `resolveParams` replaces each lazily-matched `${dotted.path}`
occurrence whose (trimmed) path resolves to a defined configuration
value with that value's string representation, leaves every occurrence
whose lookup fails textually untouched including its delimiters, and
copies all other characters unchanged; in particular the spec's
concrete example resolves as stated. -/
theorem c1_placeholder_resolution :
    (∀ (config : JValue) (s : String),
        resolveParams config (.str s) = .str (String.mk (replaceList config s.data)))
    ∧ (∀ (config : JValue) (key rest : List Char),
        key ≠ [] → (∀ c ∈ key, isDotChar c = true) → '}' ∉ key →
        replaceList config ('$' :: '{' :: (key ++ '}' :: rest)) =
          (match lookupProperty config (String.mk (trimChars key)) with
            | some v => (jsToString v).data
            | none => '$' :: '{' :: (key ++ ['}'])) ++ replaceList config rest)
    ∧ (∀ (config : JValue) (c : Char) (cs : List Char),
        ¬(c = '$' ∧ cs.head? = some '{') →
        replaceList config (c :: cs) = c :: replaceList config cs)
    ∧ resolveParams exampleConfig exampleInput = exampleOutput := by
  refine ⟨fun config s => rfl, fun config key rest hne hdot hcl => ?_,
    replaceList_cons, rfl⟩
  rw [replaceList_match config _ key rest (scanBody_exact key rest hne hdot hcl)]
  rfl

/-- Witness for C1 at the concrete key `x.y`, configuration
`{x: {y: "Z"}}`. -/
theorem c1_placeholder_resolution_witness :
    replaceList exampleConfig ('$' :: '{' :: (['x', '.', 'y'] ++ '}' :: [])) =
      (match lookupProperty exampleConfig (String.mk (trimChars ['x', '.', 'y'])) with
        | some v => (jsToString v).data
        | none => '$' :: '{' :: (['x', '.', 'y'] ++ ['}'])) ++ replaceList exampleConfig [] :=
  c1_placeholder_resolution.2.1 exampleConfig ['x', '.', 'y'] []
    (by decide) (by decide) (by decide)

mutual

/-- A size measure on values, used for strong induction. -/
def jsize : JValue → Nat
  | .str _ => 1
  | .num _ => 1
  | .bool _ => 1
  | .null => 1
  | .arr xs => jsizeItems xs + 1
  | .obj kvs => jsizeFields kvs + 1

/-- A size measure on array elements. -/
def jsizeItems : JItems → Nat
  | .nil => 0
  | .cons x xs => jsize x + jsizeItems xs + 1

/-- A size measure on object members. -/
def jsizeFields : JFields → Nat
  | .nil => 0
  | .cons _ v rest => jsize v + jsizeFields rest + 1

end

theorem jsize_pos (v : JValue) : 0 < jsize v := by
  cases v <;> simp [jsize]

/-- Fuel-bounded check that every placeholder the scanner matches in a
string fails to resolve against the configuration.  Mirrors the scan of
`replaceFuel`; the fuel (the input length, as supplied by
`unresolvedStr`) is never exhausted. -/
def unresolvedFuel (config : JValue) : Nat → List Char → Bool
  | 0, _ => true
  | _ + 1, [] => true
  | fuel + 1, c :: cs =>
      if c = '$' ∧ cs.head? = some '{' then
        match scanBody cs.tail with
        | some (body, rest') =>
            (lookupProperty config (String.mk (trimChars body))).isNone &&
              unresolvedFuel config fuel rest'
        | none => unresolvedFuel config fuel cs
      else unresolvedFuel config fuel cs

/-- Every placeholder matched in the string is unresolvable against the
configuration. -/
def unresolvedStr (config : JValue) (cs : List Char) : Bool :=
  unresolvedFuel config cs.length cs

theorem unresolvedFuel_congr (config : JValue) :
    ∀ f₁ : Nat, ∀ cs : List Char, ∀ f₂ : Nat, cs.length ≤ f₁ → cs.length ≤ f₂ →
      unresolvedFuel config f₁ cs = unresolvedFuel config f₂ cs := by
  intro f₁
  induction f₁ with
  | zero =>
    intro cs f₂ h1 _
    have : cs = [] := List.eq_nil_of_length_eq_zero (by omega)
    subst this
    cases f₂ <;> rfl
  | succ f ih =>
    intro cs f₂ h1 h2
    cases cs with
    | nil => cases f₂ <;> rfl
    | cons c cs' =>
      simp only [List.length_cons] at h1 h2
      obtain ⟨f₂', rfl⟩ : ∃ k, f₂ = k + 1 := ⟨f₂ - 1, by omega⟩
      simp only [unresolvedFuel]
      by_cases hm : c = '$' ∧ cs'.head? = some '{'
      · rw [if_pos hm, if_pos hm]
        cases hsb : scanBody cs'.tail with
        | none =>
          simp only [hsb]
          rw [ih cs' f₂' (by omega) (by omega)]
        | some p =>
          obtain ⟨body, rest'⟩ := p
          have hlt : rest'.length < cs'.tail.length := scanBody_length hsb
          have htl : cs'.tail.length ≤ cs'.length := by
            cases cs' <;> simp
          simp only [hsb]
          rw [ih rest' f₂' (by omega) (by omega)]
      · rw [if_neg hm, if_neg hm, ih cs' f₂' (by omega) (by omega)]

theorem unresolvedStr_cons (config : JValue) (c : Char) (cs : List Char)
    (hm : ¬(c = '$' ∧ cs.head? = some '{')) :
    unresolvedStr config (c :: cs) = unresolvedStr config cs := by
  simp only [unresolvedStr, List.length_cons, unresolvedFuel]
  rw [if_neg hm]

theorem unresolvedStr_match (config : JValue) (rest body rest' : List Char)
    (hsb : scanBody rest = some (body, rest')) :
    unresolvedStr config ('$' :: '{' :: rest) =
      ((lookupProperty config (String.mk (trimChars body))).isNone &&
        unresolvedStr config rest') := by
  have h1 : unresolvedStr config ('$' :: '{' :: rest) =
      ((lookupProperty config (String.mk (trimChars body))).isNone &&
        unresolvedFuel config (rest.length + 1) rest') := by
    simp [unresolvedStr, unresolvedFuel, hsb]
  have hlt : rest'.length < rest.length := scanBody_length hsb
  rw [h1,
    unresolvedFuel_congr config (rest.length + 1) rest' rest'.length (by omega) (by omega)]
  rfl

theorem unresolvedStr_nomatch (config : JValue) (rest : List Char)
    (hsb : scanBody rest = none) :
    unresolvedStr config ('$' :: '{' :: rest) = unresolvedStr config ('{' :: rest) := by
  simp [unresolvedStr, unresolvedFuel, hsb]

theorem findClose_split :
    ∀ cs b r : List Char, findClose cs = some (b, r) → cs = b ++ '}' :: r := by
  intro cs
  induction cs with
  | nil => intro b r h; simp [findClose] at h
  | cons c cs ih =>
    intro b r h
    simp only [findClose] at h
    by_cases hc : c = '}'
    · simp [hc] at h
      obtain ⟨hb, hr⟩ := h
      subst hc
      simp [← hb, ← hr]
    · simp only [hc, if_false] at h
      by_cases hd : isDotChar c
      · simp only [hd, if_true] at h
        cases hfc : findClose cs with
        | none => rw [hfc] at h; simp at h
        | some p =>
          rw [hfc] at h
          obtain ⟨b0, r0⟩ := p
          simp at h
          obtain ⟨hb, hr⟩ := h
          have := ih b0 r0 hfc
          subst hr
          simp [← hb, this]
      · simp [hd] at h

theorem scanBody_split (cs b r : List Char) (h : scanBody cs = some (b, r)) :
    cs = b ++ '}' :: r := by
  cases cs with
  | nil => simp [scanBody] at h
  | cons c cs =>
    simp only [scanBody] at h
    by_cases hd : isDotChar c
    · simp only [hd, if_true] at h
      cases hfc : findClose cs with
      | none => rw [hfc] at h; simp at h
      | some p =>
        rw [hfc] at h
        obtain ⟨b0, r0⟩ := p
        simp at h
        obtain ⟨hb, hr⟩ := h
        have := findClose_split cs b0 r0 hfc
        subst hr
        simp [← hb, this]
    · simp [hd] at h

/-- A fully-unresolvable string is left untouched by the global
replace. -/
theorem replaceList_of_unresolved (config : JValue) :
    ∀ n : Nat, ∀ cs : List Char, cs.length ≤ n →
      unresolvedStr config cs = true → replaceList config cs = cs := by
  intro n
  induction n with
  | zero =>
    intro cs h1 _
    have : cs = [] := List.eq_nil_of_length_eq_zero (by omega)
    subst this
    rfl
  | succ n ih =>
    intro cs h1 hu
    cases cs with
    | nil => rfl
    | cons c cs' =>
      simp only [List.length_cons] at h1
      by_cases hm : c = '$' ∧ cs'.head? = some '{'
      · obtain ⟨rfl, hh⟩ := hm
        obtain ⟨tl, rfl⟩ : ∃ tl, cs' = '{' :: tl := by
          cases cs' with
          | nil => simp at hh
          | cons x xs => simp at hh; exact ⟨xs, by rw [hh]⟩
        cases hsb : scanBody tl with
        | none =>
          rw [replaceList_nomatch config tl hsb]
          rw [unresolvedStr_nomatch config tl hsb] at hu
          rw [ih ('{' :: tl) (by simp at h1 ⊢; omega) hu]
        | some p =>
          obtain ⟨body, rest'⟩ := p
          rw [replaceList_match config _ body rest' hsb]
          rw [unresolvedStr_match config tl body rest' hsb] at hu
          simp only [Bool.and_eq_true, Option.isNone_iff_eq_none] at hu
          obtain ⟨hnone, hu'⟩ := hu
          have hlt : rest'.length < tl.length := scanBody_length hsb
          rw [ih rest' (by simp at h1; omega) hu']
          simp only [resolveKey, hnone]
          have hdec : tl = body ++ '}' :: rest' := scanBody_split tl body rest' hsb
          subst hdec
          simp
      · rw [replaceList_cons config c cs' hm]
        rw [unresolvedStr_cons config c cs' hm] at hu
        rw [ih cs' (by omega) hu]

mutual

/-- Every placeholder remaining anywhere in the value is unresolvable
against the configuration (the value is already fully resolved). -/
def unresolvedVal (config : JValue) : JValue → Bool
  | .str s => unresolvedStr config s.data
  | .arr xs => unresolvedItems config xs
  | .obj kvs => unresolvedFields config kvs
  | _ => true

/-- Element-wise `unresolvedVal` over an array. -/
def unresolvedItems (config : JValue) : JItems → Bool
  | .nil => true
  | .cons x xs => unresolvedVal config x && unresolvedItems config xs

/-- Member-wise `unresolvedVal` over an object. -/
def unresolvedFields (config : JValue) : JFields → Bool
  | .nil => true
  | .cons _ v rest => unresolvedVal config v && unresolvedFields config rest

end

theorem resolve_unresolved_core (config : JValue) :
    ∀ n : Nat,
      (∀ v, jsize v ≤ n → unresolvedVal config v = true → resolveParams config v = v)
      ∧ (∀ xs, jsizeItems xs ≤ n → unresolvedItems config xs = true →
          resolveItems config xs = xs)
      ∧ (∀ kvs, jsizeFields kvs ≤ n → unresolvedFields config kvs = true →
          resolveFields config kvs = kvs) := by
  intro n
  induction n with
  | zero =>
    refine ⟨fun v hsz _ => absurd hsz (by have := jsize_pos v; omega), ?_, ?_⟩
    · intro xs hsz _
      cases xs with
      | nil => rfl
      | cons x xs => simp [jsizeItems] at hsz
    · intro kvs hsz _
      cases kvs with
      | nil => rfl
      | cons k v rest => simp [jsizeFields] at hsz
  | succ n ih =>
    obtain ⟨ihv, ihi, ihf⟩ := ih
    refine ⟨?_, ?_, ?_⟩
    · intro v hsz hu
      cases v with
      | str s =>
        obtain ⟨cs⟩ := s
        have hrep : replaceList config cs = cs :=
          replaceList_of_unresolved config cs.length cs (le_refl _) hu
        simp [resolveParams, replaceTemplates, replaceList] at hrep ⊢
        rw [hrep]
      | arr xs =>
        have hxs : jsizeItems xs ≤ n := by simp [jsize] at hsz; omega
        simp only [resolveParams]
        rw [ihi xs hxs hu]
      | obj kvs =>
        have hkvs : jsizeFields kvs ≤ n := by simp [jsize] at hsz; omega
        simp only [resolveParams]
        rw [ihf kvs hkvs hu]
      | num x => rfl
      | bool b => rfl
      | null => rfl
    · intro xs hsz hu
      cases xs with
      | nil => rfl
      | cons x xs =>
        simp only [unresolvedItems, Bool.and_eq_true] at hu
        simp only [jsizeItems] at hsz
        simp only [resolveItems]
        rw [ihv x (by have := jsize_pos x; omega) hu.1, ihi xs (by omega) hu.2]
    · intro kvs hsz hu
      cases kvs with
      | nil => rfl
      | cons k v rest =>
        simp only [unresolvedFields, Bool.and_eq_true] at hu
        simp only [jsizeFields] at hsz
        simp only [resolveFields]
        rw [ihv v (by have := jsize_pos v; omega) hu.1, ihf rest (by omega) hu.2]

/-- C8: placeholder resolution is idempotent on already-fully-resolved
input: when every `${...}` pattern remaining in a value is unresolvable
against the configuration, `resolveParams` returns the value unchanged,
leaving every unresolvable pattern textually intact. -/
theorem c8_resolution_idempotent (config v : JValue)
    (hu : unresolvedVal config v = true) :
    resolveParams config v = v :=
  (resolve_unresolved_core config (jsize v)).1 v (le_refl _) hu

/-- Witness for C8: the spec example's output (which still contains the
unresolvable `${missing.path}`) is a fixed point of resolution. -/
theorem c8_resolution_idempotent_witness :
    resolveParams exampleConfig exampleOutput = exampleOutput :=
  c8_resolution_idempotent exampleConfig exampleOutput (by decide)

/-- A Task Definition from the configuration document. -/
structure Task where
  id : String
  description : Option String
  enabled : Option JValue
  params : JValue
  git : Option JValue

/-- The strict-equality test `v === false`. -/
def jsIsFalse : JValue → Bool
  | .bool b => !b
  | _ => false

/-- The filter predicate `task.enabled !== false` (absent or any
non-`false` value keeps the task). -/
def enabledNotFalse (t : Task) : Bool :=
  match t.enabled with
  | some v => !(jsIsFalse v)
  | none => true

/-- `argv.tasks.split(',').map(t => t.trim())`. -/
def cliIds (s : String) : List String :=
  (splitOnChar ',' s.data).map (fun cs => String.mk (trimChars cs))

/-- `selectTasksToRun()` from src/index.js: filter to tasks not
explicitly disabled; when the CLI `--tasks` value is truthy (present and
nonempty), further filter to the listed ids, preserving configuration
order. -/
def selectTasksToRun (tasks : List Task) (cliTasks : Option String) : List Task :=
  let enabledTasks := tasks.filter enabledNotFalse
  match cliTasks with
  | some s =>
      if s = "" then enabledTasks
      else enabledTasks.filter (fun t => (cliIds s).contains t.id)
  | none => enabledTasks

/-- The task used in the C5 counterexample: enabled, id `"a"`. -/
def taskA : Task :=
  { id := "a", description := none, enabled := none, params := .null, git := none }

/-- C5 counterexample: with the CLI ID list `""` (present but empty,
hence falsy), selection returns the enabled task whose id `"a"` is not
in the split list `[""]`; the claim's "exactly the enabled tasks whose
id is in that list" fails. -/
theorem c5_counterexample :
    selectTasksToRun [taskA] (some "") = [taskA]
    ∧ [taskA].filter (fun t => enabledNotFalse t && (cliIds "").contains t.id) = []
    ∧ ([taskA] : List Task) ≠ [] := by
  refine ⟨rfl, rfl, by simp⟩

/-- C5 (amended): task selection always returns a subsequence of the
configured tasks (original order), never includes a task whose enabled
flag is explicitly `false`, and when a *nonempty* CLI ID string is given
returns exactly the enabled tasks whose id is in that list. -/
theorem c5_select_tasks (tasks : List Task) (cli : Option String) :
    (selectTasksToRun tasks cli).Sublist tasks
    ∧ (∀ t ∈ selectTasksToRun tasks cli, enabledNotFalse t = true)
    ∧ (∀ s, cli = some s → s ≠ "" →
        selectTasksToRun tasks cli =
          tasks.filter (fun t => enabledNotFalse t && (cliIds s).contains t.id)) := by
  refine ⟨?_, ?_, ?_⟩
  · cases cli with
    | none => exact List.filter_sublist tasks
    | some s =>
      by_cases hs : s = ""
      · simp only [selectTasksToRun, hs, if_pos rfl]
        exact List.filter_sublist tasks
      · simp only [selectTasksToRun, if_neg hs]
        exact (List.filter_sublist _).trans (List.filter_sublist tasks)
  · intro t ht
    cases cli with
    | none => exact (List.mem_filter.mp ht).2
    | some s =>
      by_cases hs : s = ""
      · simp only [selectTasksToRun, hs, if_pos rfl] at ht
        exact (List.mem_filter.mp ht).2
      · simp only [selectTasksToRun, if_neg hs] at ht
        exact (List.mem_filter.mp ((List.mem_filter.mp ht).1)).2
  · intro s hs hne
    subst hs
    simp only [selectTasksToRun, if_neg hne, List.filter_filter]
    have hfun : (fun a : Task => (cliIds s).contains a.id && enabledNotFalse a)
        = (fun t : Task => enabledNotFalse t && (cliIds s).contains t.id) := by
      funext t
      exact Bool.and_comm _ _
    rw [hfun]

/-- Witness for C5 at one enabled and one disabled task with CLI list
`"a , b"`. -/
def taskB : Task :=
  { id := "b", description := none, enabled := some (.bool false), params := .null,
    git := none }

theorem c5_select_tasks_witness :
    (∀ t ∈ selectTasksToRun [taskA, taskB] (some "a , b"), enabledNotFalse t = true)
    ∧ selectTasksToRun [taskA, taskB] (some "a , b") =
        [taskA, taskB].filter
          (fun t => enabledNotFalse t && (cliIds "a , b").contains t.id) := by
  refine ⟨(c5_select_tasks [taskA, taskB] (some "a , b")).2.1, ?_⟩
  exact (c5_select_tasks [taskA, taskB] (some "a , b")).2.2 "a , b" rfl (by decide)

/-- The per-run context of the Run Controller: the `-y` bypass flag, the
wizard's answer per task (`none` models an aborted prompt, whose
`response.value` is `undefined`), and the outcome of `executeTask` on
the resolved task. -/
structure RunCtx where
  yes : Bool
  wizardAnswer : Task → Option Bool
  execOk : Task → Bool

/-- `argv.yes || await runWizard(task)`: the wizard is only consulted
when the bypass flag is falsy. -/
def shouldRunOf (ctx : RunCtx) (t : Task) : Option Bool :=
  if ctx.yes then some true else ctx.wizardAnswer t

/-- How a run ends: falling off the task loop, or `process.exit(code)`. -/
inductive RunOutcome where
  | finished
  | exitCode (code : Nat)

/-- `{ ...task, params: resolveParams(task.params, config) }`. -/
def resolveTask (config : JValue) (t : Task) : Task :=
  { t with params := resolveParams config t.params }

/-- The task loop of `main()` from src/index.js.  Returns the tasks
passed to `executeTask`, in order, and how the run ended: an aborted
prompt exits the process with code 0, a declined prompt skips the task,
a failed execution exits with code 1, and otherwise the loop finishes. -/
def runTasks (ctx : RunCtx) (config : JValue) : List Task → List Task × RunOutcome
  | [] => ([], .finished)
  | t :: rest =>
      match shouldRunOf ctx t with
      | none => ([], .exitCode 0)
      | some true =>
          let rt := resolveTask config t
          if ctx.execOk rt then
            ((runTasks ctx config rest).1.cons rt, (runTasks ctx config rest).2)
          else ([rt], .exitCode 1)
      | some false => runTasks ctx config rest

/-- The empty configuration used in concrete run examples. -/
def cfg0 : JValue := .obj .nil

/-- Three tasks for the spec's concrete fail-fast example. -/
def taskT1 : Task :=
  { id := "t1", description := none, enabled := none, params := .null, git := none }

def taskT2 : Task :=
  { id := "t2", description := none, enabled := none, params := .null, git := none }

def taskT3 : Task :=
  { id := "t3", description := none, enabled := none, params := .null, git := none }

/-- A bypassed run in which exactly the task with id `"t2"` fails. -/
def ctx3 : RunCtx :=
  { yes := true, wizardAnswer := fun _ => some true,
    execOk := fun t => !(t.id == "t2") }

/-- C2: when a confirmed task fails, every earlier confirmed task was
executed in order before it, the failing task itself is executed, no
later task runs, and the process exits with the non-zero code 1; in the
concrete three-task run where the second task fails, exactly tasks 1
and 2 execute. -/
theorem c2_fail_fast :
    (∀ (ctx : RunCtx) (config : JValue) (pre post : List Task) (f : Task),
      (∀ t ∈ pre, shouldRunOf ctx t ≠ none) →
      (∀ t ∈ pre, shouldRunOf ctx t = some true →
        ctx.execOk (resolveTask config t) = true) →
      shouldRunOf ctx f = some true →
      ctx.execOk (resolveTask config f) = false →
      runTasks ctx config (pre ++ f :: post) =
        ((pre.filter (fun t => shouldRunOf ctx t == some true)).map (resolveTask config)
          ++ [resolveTask config f], .exitCode 1))
    ∧ runTasks ctx3 cfg0 [taskT1, taskT2, taskT3] = ([taskT1, taskT2], .exitCode 1) := by
  constructor
  · intro ctx config pre post f h1 h2 h3 h4
    induction pre with
    | nil => simp [runTasks, h3, h4]
    | cons t pre ih =>
      cases hs : shouldRunOf ctx t with
      | none => exact absurd hs (h1 t (List.mem_cons_self t pre))
      | some b =>
        have hrec := ih (fun x hx => h1 x (List.mem_cons_of_mem t hx))
          (fun x hx => h2 x (List.mem_cons_of_mem t hx))
        cases b with
        | false =>
          have hstep : runTasks ctx config ((t :: pre) ++ f :: post) =
              runTasks ctx config (pre ++ f :: post) := by
            simp [runTasks, hs]
          rw [hstep, hrec]
          simp [List.filter_cons, hs]
        | true =>
          have hok : ctx.execOk (resolveTask config t) = true :=
            h2 t (List.mem_cons_self t pre) hs
          have hstep : runTasks ctx config ((t :: pre) ++ f :: post) =
              ((runTasks ctx config (pre ++ f :: post)).1.cons (resolveTask config t),
                (runTasks ctx config (pre ++ f :: post)).2) := by
            simp [runTasks, hs, hok]
          rw [hstep, hrec]
          simp [List.filter_cons, hs]
  · rfl

/-- Witness for C2 at the concrete three-task run. -/
theorem c2_fail_fast_witness :
    runTasks ctx3 cfg0 ([taskT1] ++ taskT2 :: [taskT3]) =
      (([taskT1].filter (fun t => shouldRunOf ctx3 t == some true)).map (resolveTask cfg0)
        ++ [resolveTask cfg0 taskT2], .exitCode 1) :=
  c2_fail_fast.1 ctx3 cfg0 [taskT1] [taskT3] taskT2
    (by decide) (by decide) (by decide) (by decide)

/-- C7: aborting the confirmation prompt itself (no answer) terminates
the whole run immediately with exit code 0, whereas answering no only
skips that one task and the loop continues with the remaining tasks. -/
theorem c7_abort_vs_decline :
    (∀ (ctx : RunCtx) (config : JValue) (t : Task) (rest : List Task),
      ctx.yes = false → ctx.wizardAnswer t = none →
      runTasks ctx config (t :: rest) = ([], .exitCode 0))
    ∧ (∀ (ctx : RunCtx) (config : JValue) (t : Task) (rest : List Task),
      ctx.yes = false → ctx.wizardAnswer t = some false →
      runTasks ctx config (t :: rest) = runTasks ctx config rest) := by
  constructor
  · intro ctx config t rest hy hw
    simp [runTasks, shouldRunOf, hy, hw]
  · intro ctx config t rest hy hw
    simp [runTasks, shouldRunOf, hy, hw]

/-- A run context whose wizard is aborted at every prompt. -/
def ctxAbort : RunCtx :=
  { yes := false, wizardAnswer := fun _ => none, execOk := fun _ => true }

/-- Witness for C7: an aborted prompt on the first task ends the run
with exit code 0. -/
theorem c7_abort_vs_decline_witness :
    runTasks ctxAbort cfg0 (taskT1 :: [taskT2]) = ([], .exitCode 0) :=
  c7_abort_vs_decline.1 ctxAbort cfg0 taskT1 [taskT2] rfl rfl

/-- A JavaScript `Error`-like value: a message plus the optional
properties the runner reads (`stack` for task errors, `stdout`/`stderr`
for subprocess errors). -/
structure JsError where
  message : String
  stack : Option String := none
  stdout : Option String := none
  stderr : Option String := none

/-- `error.stack || error.message` (an empty stack string is falsy). -/
def errorText (e : JsError) : String :=
  match e.stack with
  | some s => if s = "" then e.message else s
  | none => e.message

/-- What a dynamically imported task module looks like to the executor:
whether it exports a `run` function, and what awaiting that function
does (returns, or throws a `JsError`). -/
structure TaskModule where
  hasRun : Bool
  runResult : Except JsError Unit

/-- The per-task environment `executeTask` runs against: whether
`fs.access(taskPath)` succeeds, and the outcome of the dynamic import. -/
structure TaskEnv where
  handlerExists : Bool
  load : Except JsError TaskModule

/-- The task-scoped log events `executeTask` emits. -/
inductive TaskLog where
  | notFound
  | started
  | succeeded
  | failed (text : String)

/-- The error thrown when the loaded module exports no `run` function. -/
def runExportError : JsError :=
  { message := "Task module must export an async function named \"run\"." }

/-- `executeTask(task)` from src/index.js: a missing handler file logs
and returns failure; everything thrown inside the second `try` (a
failing import, the missing-`run` check, or an exception from the
handler's `run` call) is caught, logged with its stack or message, and
converted to a `false` return value.  The return type `Bool × List
TaskLog` reflects that the function only ever returns a boolean (with
its log), never propagating an exception. -/
def executeTask (env : TaskEnv) : Bool × List TaskLog :=
  if env.handlerExists = false then
    (false, [.notFound])
  else
    match env.load with
    | .error e => (false, [.failed (errorText e)])
    | .ok m =>
        if m.hasRun = false then (false, [.failed (errorText runExportError)])
        else
          match m.runResult with
          | .ok _ => (true, [.started, .succeeded])
          | .error e => (false, [.started, .failed (errorText e)])

/-- C3: `executeTask` always returns a boolean: a missing handler file
yields `false` (logged, not thrown), a loaded module without a `run`
export yields `false`, an exception from the handler's `run` call is
caught, logged with its stack or message, and yields `false`, and the
result is `true` exactly when the handler exists, loads, exports `run`,
and `run` returns normally. -/
theorem c3_execute_isolates_failures (env : TaskEnv) :
    (env.handlerExists = false → executeTask env = (false, [.notFound]))
    ∧ (∀ m, env.load = .ok m → m.hasRun = false → (executeTask env).1 = false)
    ∧ (∀ m e, env.load = .ok m → m.hasRun = true → m.runResult = .error e →
        env.handlerExists = true →
        executeTask env = (false, [.started, .failed (errorText e)]))
    ∧ ((executeTask env).1 = true ↔
        env.handlerExists = true ∧
          ∃ m, env.load = .ok m ∧ m.hasRun = true ∧ m.runResult = .ok ()) := by
  obtain ⟨he, hl⟩ := env
  refine ⟨?_, ?_, ?_, ?_⟩
  · intro h
    subst h
    rfl
  · intro m hm hr
    cases he with
    | false => rfl
    | true =>
      subst hm
      simp [executeTask, hr]
  · intro m e hm hr hrr hhe
    subst hm hhe
    simp [executeTask, hr, hrr]
  · cases he with
    | false => simp [executeTask]
    | true =>
      cases hl with
      | error e => simp [executeTask]
      | ok m =>
        obtain ⟨hr, rr⟩ := m
        cases hr with
        | false => simp [executeTask]
        | true =>
          cases rr with
          | ok u => simp [executeTask]
          | error e => simp [executeTask]

/-- Witness for C3: a handler whose `run` call throws is converted to a
logged failure. -/
def envThrow : TaskEnv :=
  { handlerExists := true,
    load := .ok { hasRun := true, runResult := .error { message := "boom" } } }

theorem c3_execute_isolates_failures_witness :
    executeTask envThrow =
      (false, [.started, .failed (errorText { message := "boom" })]) :=
  (c3_execute_isolates_failures envThrow).2.2.1
    { hasRun := true, runResult := .error { message := "boom" } }
    { message := "boom" } rfl rfl rfl rfl

/-- Captured output of a successful subprocess. -/
structure ExecOut where
  stdout : String
  stderr : String

/-- The subprocess oracle: what `execAsync(cmd)` does for each command
line (resolves with captured output, or rejects with an error carrying
the captured streams). -/
def ExecEnv : Type :=
  String → Except JsError ExecOut

/-- `Array.isArray(files) ? files.join(' ') : files`, as interpolated
into the `git add` command line. -/
def filesToAdd : JValue → String
  | .arr xs => String.intercalate " " (jsElems xs)
  | v => jsToString v

/-- `commitMessage.replace(/"/g, '\\"')`: escape every double quote. -/
def sanitizeQuotes (s : String) : String :=
  String.mk (s.data.map (fun c => if c = '"' then ['\\', '"'] else [c])).flatten

/-- The commit-message resolution of `gitCommit`: `commit: true` uses
the task description, failing when there is none (or it is empty, which
is falsy); a string is used as is; any other truthy value has no
`.replace` method and throws. -/
def gitCommitCommand (cv : JValue) (description : Option String) : Except JsError String :=
  match cv with
  | .bool true =>
      match description with
      | some d =>
          if d = "" then
            .error { message := "Cannot use 'commit: true' when the task has no description." }
          else .ok ("git commit -m \"" ++ sanitizeQuotes d ++ "\"")
      | none =>
          .error { message := "Cannot use 'commit: true' when the task has no description." }
  | .str s => .ok ("git commit -m \"" ++ sanitizeQuotes s ++ "\"")
  | _ => .error { message := "commitMessage.replace is not a function" }

/-- The `if (add) await gitAdd(...)` step: skipped for an absent or
falsy value; otherwise runs `git add <files>`, reporting the commands
issued and the error if the subprocess failed. -/
def gitStepAdd (env : ExecEnv) (addV : Option JValue) : List String × Option JsError :=
  match addV with
  | none => ([], none)
  | some files =>
      if jsFalsy files then ([], none)
      else
        match env ("git add " ++ filesToAdd files) with
        | .ok _ => (["git add " ++ filesToAdd files], none)
        | .error e => (["git add " ++ filesToAdd files], some e)

/-- The `if (commit) await gitCommit(...)` step: skipped for an absent
or falsy value; the message resolution may throw before any subprocess
runs. -/
def gitStepCommit (env : ExecEnv) (commitV : Option JValue) (description : Option String) :
    List String × Option JsError :=
  match commitV with
  | none => ([], none)
  | some cv =>
      if jsFalsy cv then ([], none)
      else
        match gitCommitCommand cv description with
        | .error e => ([], some e)
        | .ok cmd =>
            match env cmd with
            | .ok _ => ([cmd], none)
            | .error e => ([cmd], some e)

/-- The `if (push) await gitPush(...)` step. -/
def gitStepPush (env : ExecEnv) (pushV : Option JValue) : List String × Option JsError :=
  match pushV with
  | none => ([], none)
  | some pv =>
      if jsFalsy pv then ([], none)
      else
        match env "git push" with
        | .ok _ => (["git push"], none)
        | .error e => (["git push"], some e)

/-- The destructuring `const { add, commit, push } = gitConfig`: a
property access on the git configuration value. -/
def gitField (g : JValue) (k : String) : Option JValue :=
  match g with
  | .obj kvs => kvs.lookup k
  | _ => none

/-- `error.stdout || 'N/A'` (absent or empty streams are falsy). -/
def orNA : Option String → String
  | some s => if s = "" then "N/A" else s
  | none => "N/A"

/-- The catch block's log lines: the failure's captured standard output
and standard error. -/
def catchLog (e : JsError) : List String :=
  ["A Git command failed:", "STDOUT: " ++ orNA e.stdout, "STDERR: " ++ orNA e.stderr]

/-- The single summarized error re-raised to the caller. -/
def summaryError : JsError :=
  { message := "Git operation failed. See logs for details." }

/-- The observable outcome of `handleGitAction`: the subprocess command
lines issued in order, the error log, and the returned or thrown
result. -/
structure GitOutcome where
  cmds : List String
  log : List String
  result : Except JsError Unit

/-- The `try`/`catch` body of `handleGitAction`: the three steps in the
fixed order add, commit, push; the first failing step aborts the rest,
its captured streams are logged, and a single summarized error is
re-raised. -/
def handleGitCore (env : ExecEnv) (addV commitV pushV : Option JValue)
    (description : Option String) : GitOutcome :=
  match gitStepAdd env addV with
  | (c₁, some e) => ⟨c₁, catchLog e, .error summaryError⟩
  | (c₁, none) =>
      match gitStepCommit env commitV description with
      | (c₂, some e) => ⟨c₁ ++ c₂, catchLog e, .error summaryError⟩
      | (c₂, none) =>
          match gitStepPush env pushV with
          | (c₃, some e) => ⟨c₁ ++ c₂ ++ c₃, catchLog e, .error summaryError⟩
          | (c₃, none) => ⟨c₁ ++ c₂ ++ c₃, [], .ok ()⟩

/-- `handleGitAction(task, globalConfig, logger)` from
src/git-handler.js: a no-op without a (truthy) git configuration;
otherwise destructure the three step keys and run the core. -/
def handleGitAction (env : ExecEnv) (task : Task) : GitOutcome :=
  match task.git with
  | none => ⟨[], [], .ok ()⟩
  | some g =>
      if jsFalsy g then ⟨[], [], .ok ()⟩
      else
        handleGitCore env (gitField g "add") (gitField g "commit") (gitField g "push")
          task.description

theorem get4_of_append (a s : String) (ha : 4 < a.data.length) :
    (a ++ s).data.get? 4 = a.data.get? 4 := by
  rw [String.data_append, List.get?_append ha]

theorem gitAdd_cmd_ne_push (s : String) : "git add " ++ s ≠ "git push" := by
  intro h
  have h4 : ("git add " ++ s).data.get? 4 = "git push".data.get? 4 := by rw [h]
  rw [get4_of_append _ _ (by decide)] at h4
  exact absurd h4 (by decide)

theorem gitCommit_cmd_ne_push (s : String) :
    "git commit -m \"" ++ s ++ "\"" ≠ "git push" := by
  intro h
  have h4 : ("git commit -m \"" ++ s ++ "\"").data.get? 4 = "git push".data.get? 4 := by
    rw [h]
  rw [get4_of_append _ _ (by simp [String.data_append]),
    get4_of_append _ _ (by decide)] at h4
  exact absurd h4 (by decide)

/-- C4: `handleGitAction` reads its git configuration only through the
three step keys (so the key order in the mapping is irrelevant), runs
the configured steps in the fixed order add, commit, push, aborts at the
first failing step (its captured stdout/stderr logged, a single
summarized error re-raised), and in particular never issues `git push`
from the add or commit step, so a push is never attempted when commit
fails. -/
theorem c4_git_fixed_order :
    (∀ (env : ExecEnv) (t t' : Task) (g g' : JValue),
        t.git = some g → t'.git = some g' → t.description = t'.description →
        jsFalsy g = jsFalsy g' →
        (∀ k, gitField g k = gitField g' k) →
        handleGitAction env t = handleGitAction env t')
    ∧ (∀ (env : ExecEnv) (task : Task) (g : JValue) (c₁ c₂ c₃ : List String),
        task.git = some g → jsFalsy g = false →
        gitStepAdd env (gitField g "add") = (c₁, none) →
        gitStepCommit env (gitField g "commit") task.description = (c₂, none) →
        gitStepPush env (gitField g "push") = (c₃, none) →
        handleGitAction env task = ⟨c₁ ++ c₂ ++ c₃, [], .ok ()⟩)
    ∧ (∀ (env : ExecEnv) (task : Task) (g : JValue) (c₁ : List String) (e : JsError),
        task.git = some g → jsFalsy g = false →
        gitStepAdd env (gitField g "add") = (c₁, some e) →
        handleGitAction env task = ⟨c₁, catchLog e, .error summaryError⟩)
    ∧ (∀ (env : ExecEnv) (task : Task) (g : JValue) (c₁ c₂ : List String) (e : JsError),
        task.git = some g → jsFalsy g = false →
        gitStepAdd env (gitField g "add") = (c₁, none) →
        gitStepCommit env (gitField g "commit") task.description = (c₂, some e) →
        handleGitAction env task = ⟨c₁ ++ c₂, catchLog e, .error summaryError⟩)
    ∧ (∀ (env : ExecEnv) (o : Option JValue), "git push" ∉ (gitStepAdd env o).1)
    ∧ (∀ (env : ExecEnv) (o : Option JValue) (d : Option String),
        "git push" ∉ (gitStepCommit env o d).1) := by
  refine ⟨?_, ?_, ?_, ?_, ?_, ?_⟩
  · intro env t t' g g' hg hg' hdesc hfal hk
    simp only [handleGitAction, hg, hg']
    rw [hfal, hk "add", hk "commit", hk "push", hdesc]
  · intro env task g c₁ c₂ c₃ hg hfal h1 h2 h3
    simp [handleGitAction, hg, hfal, handleGitCore, h1, h2, h3]
  · intro env task g c₁ e hg hfal h1
    simp [handleGitAction, hg, hfal, handleGitCore, h1]
  · intro env task g c₁ c₂ e hg hfal h1 h2
    simp [handleGitAction, hg, hfal, handleGitCore, h1, h2]
  · intro env o
    cases o with
    | none => simp [gitStepAdd]
    | some files =>
      by_cases hf : jsFalsy files
      · simp [gitStepAdd, hf]
      · cases henv : env ("git add " ++ filesToAdd files) with
        | ok out =>
          simp [gitStepAdd, hf, henv]
          exact Ne.symm (gitAdd_cmd_ne_push _)
        | error e =>
          simp [gitStepAdd, hf, henv]
          exact Ne.symm (gitAdd_cmd_ne_push _)
  · intro env o d
    cases o with
    | none => simp [gitStepCommit]
    | some cv =>
      by_cases hf : jsFalsy cv
      · simp [gitStepCommit, hf]
      · cases hcmd : gitCommitCommand cv d with
        | error e => simp [gitStepCommit, hf, hcmd]
        | ok cmd =>
          have hne : cmd ≠ "git push" := by
            cases cv with
            | bool b =>
              cases b with
              | true =>
                cases d with
                | none => simp [gitCommitCommand] at hcmd
                | some dd =>
                  by_cases hdd : dd = ""
                  · simp [gitCommitCommand, hdd] at hcmd
                  · simp [gitCommitCommand, hdd] at hcmd
                    rw [← hcmd]
                    exact gitCommit_cmd_ne_push (sanitizeQuotes dd)
              | false => simp [jsFalsy] at hf
            | str s =>
              simp [gitCommitCommand] at hcmd
              rw [← hcmd]
              exact gitCommit_cmd_ne_push (sanitizeQuotes s)
            | num n => simp [gitCommitCommand] at hcmd
            | null => simp [jsFalsy] at hf
            | arr xs => simp [gitCommitCommand] at hcmd
            | obj kvs => simp [gitCommitCommand] at hcmd
          cases henv : env cmd with
          | ok out =>
            simp [gitStepCommit, hf, hcmd, henv]
            exact Ne.symm hne
          | error e =>
            simp [gitStepCommit, hf, hcmd, henv]
            exact Ne.symm hne

/-- A subprocess oracle for witnesses: `git add a` succeeds, everything
else fails with captured streams. -/
def envCommitFails : ExecEnv := fun cmd =>
  if cmd = "git add a" then .ok { stdout := "", stderr := "" }
  else .error { message := "exit 1", stdout := some "out", stderr := some "err" }

/-- A task whose git configuration stages `a`, commits with message `m`,
and pushes. -/
def taskGit : Task :=
  { id := "g", description := none, enabled := none, params := .null,
    git := some (.obj (.cons "push" (.bool true)
      (.cons "add" (.str "a") (.cons "commit" (.str "m") .nil)))) }

/-- Witness for C4: with the commit subprocess failing, the pipeline
runs add then commit, logs the captured streams, and re-raises the
summarized error without attempting `git push`. -/
theorem c4_git_fixed_order_witness :
    handleGitAction envCommitFails taskGit =
      ⟨["git add a"] ++ ["git commit -m \"m\""],
        catchLog { message := "exit 1", stdout := some "out", stderr := some "err" },
        .error summaryError⟩ :=
  c4_git_fixed_order.2.2.2.1 envCommitFails taskGit
    (.obj (.cons "push" (.bool true)
      (.cons "add" (.str "a") (.cons "commit" (.str "m") .nil))))
    ["git add a"] ["git commit -m \"m\""]
    { message := "exit 1", stdout := some "out", stderr := some "err" }
    rfl rfl rfl rfl

/-- The configuration error thrown by `gitCommit` when `commit: true`
has no description to use. -/
def noDescriptionError : JsError :=
  { message := "Cannot use 'commit: true' when the task has no description." }

/-- C6: a task whose git configuration is exactly `{commit: true}` and
whose definition has no description fails with a configuration error
thrown before any subprocess runs: no git command is issued, the catch
block logs (with no captured streams), and the summarized error is
raised to the caller — for every subprocess oracle. -/
theorem c6_commit_true_needs_description (env : ExecEnv) (task : Task)
    (hg : task.git = some (.obj (.cons "commit" (.bool true) .nil)))
    (hd : task.description = none) :
    handleGitAction env task =
      ⟨[], catchLog noDescriptionError, .error summaryError⟩ := by
  simp [handleGitAction, hg, hd, handleGitCore, gitField, gitStepAdd, gitStepCommit,
    gitCommitCommand, JFields.lookup, jsFalsy, noDescriptionError]

/-- Witness for C6 on a concrete task, under an oracle that would
succeed on any command (none is issued). -/
def taskC6 : Task :=
  { id := "c6", description := none, enabled := none, params := .null,
    git := some (.obj (.cons "commit" (.bool true) .nil)) }

def envAllOk : ExecEnv := fun _ => .ok { stdout := "", stderr := "" }

theorem c6_commit_true_needs_description_witness :
    handleGitAction envAllOk taskC6 =
      ⟨[], catchLog noDescriptionError, .error summaryError⟩ :=
  c6_commit_true_needs_description envAllOk taskC6 rfl rfl

/-- Truthiness normalization of a destructured git step value: a falsy
value behaves like an absent key. -/
def truthyField (o : Option JValue) : Option JValue :=
  match o with
  | some v => if jsFalsy v then none else some v
  | none => none

theorem gitStepAdd_truthyField (env : ExecEnv) (o : Option JValue) :
    gitStepAdd env o = gitStepAdd env (truthyField o) := by
  cases o with
  | none => rfl
  | some v =>
    by_cases hv : jsFalsy v
    · simp [gitStepAdd, truthyField, hv]
    · simp [truthyField, hv]

theorem gitStepCommit_truthyField (env : ExecEnv) (o : Option JValue)
    (d : Option String) :
    gitStepCommit env o d = gitStepCommit env (truthyField o) d := by
  cases o with
  | none => rfl
  | some v =>
    by_cases hv : jsFalsy v
    · simp [gitStepCommit, truthyField, hv]
    · simp [truthyField, hv]

theorem gitStepPush_truthyField (env : ExecEnv) (o : Option JValue) :
    gitStepPush env o = gitStepPush env (truthyField o) := by
  cases o with
  | none => rfl
  | some v =>
    by_cases hv : jsFalsy v
    · simp [gitStepPush, truthyField, hv]
    · simp [truthyField, hv]

/-- C10: a step key bound to a falsy value (`add: ""`, `commit: false`,
`push: false`, ...) is skipped exactly as if the key were absent — the
step issues no subprocess — and two git configurations whose step keys
agree up to this falsy-equals-absent normalization produce identical
pipelines (the remaining truthy steps still run, in order). -/
theorem c10_falsy_step_skipped :
    (∀ (env : ExecEnv) (v : JValue), jsFalsy v = true →
      gitStepAdd env (some v) = gitStepAdd env none)
    ∧ (∀ (env : ExecEnv) (v : JValue) (d : Option String), jsFalsy v = true →
      gitStepCommit env (some v) d = gitStepCommit env none d)
    ∧ (∀ (env : ExecEnv) (v : JValue), jsFalsy v = true →
      gitStepPush env (some v) = gitStepPush env none)
    ∧ (∀ (env : ExecEnv) (t t' : Task) (g g' : JValue),
        t.git = some g → t'.git = some g' → t.description = t'.description →
        jsFalsy g = false → jsFalsy g' = false →
        (∀ k, truthyField (gitField g k) = truthyField (gitField g' k)) →
        handleGitAction env t = handleGitAction env t') := by
  refine ⟨?_, ?_, ?_, ?_⟩
  · intro env v hv
    simp [gitStepAdd, hv]
  · intro env v d hv
    simp [gitStepCommit, hv]
  · intro env v hv
    simp [gitStepPush, hv]
  · intro env t t' g g' hg hg' hdesc hfal hfal' hk
    simp only [handleGitAction, hg, hg', hfal, hfal', Bool.false_eq_true, if_false,
      handleGitCore]
    rw [gitStepAdd_truthyField env (gitField g "add"), hk "add",
      ← gitStepAdd_truthyField env (gitField g' "add"),
      gitStepCommit_truthyField env (gitField g "commit"), hk "commit",
      ← gitStepCommit_truthyField env (gitField g' "commit"),
      gitStepPush_truthyField env (gitField g "push"), hk "push",
      ← gitStepPush_truthyField env (gitField g' "push"), hdesc]

/-- Witness for C10: `commit: false` behaves exactly like an absent
commit key. -/
theorem c10_falsy_step_skipped_witness :
    gitStepCommit envAllOk (some (.bool false)) none = gitStepCommit envAllOk none none :=
  c10_falsy_step_skipped.2.1 envAllOk (.bool false) none rfl

/-!
Heap model for the copy-on-resolve property (claim C9).  JavaScript
objects and arrays live on a heap and are passed by reference;
`resolveParams` builds a new object (`const newObj = {}`) or array
(`data.map(...)`) at every recursed level and never writes to its input
or to the configuration.  We model the heap explicitly: `HVal` is a
primitive or a reference to a `HCell` (an array or object cell) at an
address in a `Heap`, and allocation appends a cell.  The configuration
document lives in the same heap (as the value `cfgV`); string
resolution reads it through `decodeV`, a read-only operation.
-/

/-- A heap-level JavaScript value: a primitive, or a reference to a
heap cell. -/
inductive HVal where
  | str (s : String)
  | num (n : Int)
  | bool (b : Bool)
  | null
  | ref (a : Nat)

/-- A heap cell: an array of values or an object of members. -/
inductive HCell where
  | arrC (xs : List HVal)
  | objC (kvs : List (String × HVal))

/-- The heap: cell `a` is the `a`-th entry; allocation appends. -/
abbrev Heap := List HCell

mutual

/-- Read the tree a heap value denotes (`none` on a dangling reference
or when the fuel runs out; any acyclic structure decodes under enough
fuel).  Reading never changes the heap. -/
def decodeV : Nat → Heap → HVal → Option JValue
  | 0, _, _ => none
  | _ + 1, _, .str s => some (.str s)
  | _ + 1, _, .num n => some (.num n)
  | _ + 1, _, .bool b => some (.bool b)
  | _ + 1, _, .null => some .null
  | fuel + 1, h, .ref a =>
      match h[a]? with
      | some (.arrC xs) => (decodeL fuel h xs).map .arr
      | some (.objC kvs) => (decodeF fuel h kvs).map .obj
      | none => none

/-- Decode the elements of an array cell. -/
def decodeL : Nat → Heap → List HVal → Option JItems
  | 0, _, _ => none
  | _ + 1, _, [] => some .nil
  | fuel + 1, h, x :: xs =>
      match decodeV fuel h x, decodeL fuel h xs with
      | some t, some ts => some (.cons t ts)
      | _, _ => none

/-- Decode the members of an object cell. -/
def decodeF : Nat → Heap → List (String × HVal) → Option JFields
  | 0, _, _ => none
  | _ + 1, _, [] => some .nil
  | fuel + 1, h, kv :: rest =>
      match decodeV fuel h kv.2, decodeF fuel h rest with
      | some t, some ts => some (.cons kv.1 t ts)
      | _, _ => none

end

mutual

/-- The heap-instrumented `resolveParams(data, config)`: strings are
replaced against the decoded configuration, an array or object
reference is resolved element-wise and a **new** cell is allocated for
the result (`data.map(...)` / `const newObj = {}`), and primitives pass
through.  The input heap is only read and appended to, never updated in
place.  Fuel only bounds the recursion depth. -/
def resolveHV (cfgV : HVal) : Nat → Heap → HVal → Heap × HVal
  | 0, h, _ => (h, .null)
  | fuel + 1, h, .str s =>
      (h, .str (replaceTemplates s ((decodeV fuel h cfgV).getD .null)))
  | fuel + 1, h, .ref a =>
      match h[a]? with
      | some (.arrC xs) =>
          ((resolveHL cfgV fuel h xs).1 ++ [.arrC (resolveHL cfgV fuel h xs).2],
            .ref (resolveHL cfgV fuel h xs).1.length)
      | some (.objC kvs) =>
          ((resolveHF cfgV fuel h kvs).1 ++ [.objC (resolveHF cfgV fuel h kvs).2],
            .ref (resolveHF cfgV fuel h kvs).1.length)
      | none => (h, .ref a)
  | _ + 1, h, v => (h, v)

/-- Element-wise heap resolution of an array cell's contents, threading
the heap left to right. -/
def resolveHL (cfgV : HVal) : Nat → Heap → List HVal → Heap × List HVal
  | 0, h, _ => (h, [])
  | _ + 1, h, [] => (h, [])
  | fuel + 1, h, x :: xs =>
      ((resolveHL cfgV fuel (resolveHV cfgV fuel h x).1 xs).1,
        (resolveHV cfgV fuel h x).2 ::
          (resolveHL cfgV fuel (resolveHV cfgV fuel h x).1 xs).2)

/-- Member-wise heap resolution of an object cell's contents. -/
def resolveHF (cfgV : HVal) : Nat → Heap → List (String × HVal) → Heap × List (String × HVal)
  | 0, h, _ => (h, [])
  | _ + 1, h, [] => (h, [])
  | fuel + 1, h, kv :: rest =>
      ((resolveHF cfgV fuel (resolveHV cfgV fuel h kv.2).1 rest).1,
        (kv.1, (resolveHV cfgV fuel h kv.2).2) ::
          (resolveHF cfgV fuel (resolveHV cfgV fuel h kv.2).1 rest).2)

end

/-- Resolution only ever appends to the heap. -/
theorem resolveH_extends (cfgV : HVal) :
    ∀ fuel : Nat,
      (∀ (h : Heap) (v : HVal), ∃ ext, (resolveHV cfgV fuel h v).1 = h ++ ext)
      ∧ (∀ (h : Heap) (xs : List HVal), ∃ ext, (resolveHL cfgV fuel h xs).1 = h ++ ext)
      ∧ (∀ (h : Heap) (kvs : List (String × HVal)),
          ∃ ext, (resolveHF cfgV fuel h kvs).1 = h ++ ext) := by
  intro fuel
  induction fuel with
  | zero =>
    exact ⟨fun h v => ⟨[], by simp [resolveHV]⟩,
      fun h xs => ⟨[], by simp [resolveHL]⟩,
      fun h kvs => ⟨[], by simp [resolveHF]⟩⟩
  | succ fuel ih =>
    obtain ⟨ihv, ihl, ihf⟩ := ih
    refine ⟨?_, ?_, ?_⟩
    · intro h v
      cases v with
      | ref a =>
        cases hc : h[a]? with
        | none => exact ⟨[], by simp [resolveHV, hc]⟩
        | some c =>
          cases c with
          | arrC xs =>
            obtain ⟨ext, hext⟩ := ihl h xs
            refine ⟨ext ++ [.arrC (resolveHL cfgV fuel h xs).2], ?_⟩
            simp only [resolveHV, hc]
            rw [hext, List.append_assoc]
          | objC kvs =>
            obtain ⟨ext, hext⟩ := ihf h kvs
            refine ⟨ext ++ [.objC (resolveHF cfgV fuel h kvs).2], ?_⟩
            simp only [resolveHV, hc]
            rw [hext, List.append_assoc]
      | str s => exact ⟨[], by simp [resolveHV]⟩
      | num n => exact ⟨[], by simp [resolveHV]⟩
      | bool b => exact ⟨[], by simp [resolveHV]⟩
      | null => exact ⟨[], by simp [resolveHV]⟩
    · intro h xs
      cases xs with
      | nil => exact ⟨[], by simp [resolveHL]⟩
      | cons x xs =>
        obtain ⟨e₁, h₁⟩ := ihv h x
        obtain ⟨e₂, h₂⟩ := ihl ((resolveHV cfgV fuel h x).1) xs
        refine ⟨e₁ ++ e₂, ?_⟩
        simp only [resolveHL]
        rw [h₂, h₁, List.append_assoc]
    · intro h kvs
      cases kvs with
      | nil => exact ⟨[], by simp [resolveHF]⟩
      | cons kv rest =>
        obtain ⟨e₁, h₁⟩ := ihv h kv.2
        obtain ⟨e₂, h₂⟩ := ihf ((resolveHV cfgV fuel h kv.2).1) rest
        refine ⟨e₁ ++ e₂, ?_⟩
        simp only [resolveHF]
        rw [h₂, h₁, List.append_assoc]

/-- Decoding is stable under heap extension: reads only touch existing
cells. -/
theorem decode_extends (ext : List HCell) :
    ∀ fuel : Nat,
      (∀ (h : Heap) (v : HVal) (t : JValue), decodeV fuel h v = some t →
        decodeV fuel (h ++ ext) v = some t)
      ∧ (∀ (h : Heap) (xs : List HVal) (ts : JItems), decodeL fuel h xs = some ts →
        decodeL fuel (h ++ ext) xs = some ts)
      ∧ (∀ (h : Heap) (kvs : List (String × HVal)) (fs : JFields),
        decodeF fuel h kvs = some fs → decodeF fuel (h ++ ext) kvs = some fs) := by
  intro fuel
  induction fuel with
  | zero =>
    refine ⟨?_, ?_, ?_⟩
    · intro h v t hx
      simp [decodeV] at hx
    · intro h xs ts hx
      simp [decodeL] at hx
    · intro h kvs fs hx
      simp [decodeF] at hx
  | succ fuel ih =>
    obtain ⟨ihv, ihl, ihf⟩ := ih
    refine ⟨?_, ?_, ?_⟩
    · intro h v t ht
      cases v with
      | ref a =>
        simp only [decodeV] at ht ⊢
        cases hc : h[a]? with
        | none => rw [hc] at ht; simp at ht
        | some c =>
          have ha : a < h.length := by
            by_contra hlt
            rw [List.getElem?_eq_none (by omega)] at hc
            cases hc
          have hc' : (h ++ ext)[a]? = some c := by
            rw [List.getElem?_append_left ha]
            exact hc
          cases c with
          | arrC xs =>
            simp only [hc] at ht
            simp only [hc']
            cases hd : decodeL fuel h xs with
            | none => rw [hd] at ht; simp at ht
            | some ts =>
              rw [hd] at ht
              rw [ihl h xs ts hd]
              exact ht
          | objC kvs =>
            simp only [hc] at ht
            simp only [hc']
            cases hd : decodeF fuel h kvs with
            | none => rw [hd] at ht; simp at ht
            | some fs =>
              rw [hd] at ht
              rw [ihf h kvs fs hd]
              exact ht
      | str s => exact ht
      | num n => exact ht
      | bool b => exact ht
      | null => exact ht
    · intro h xs ts hts
      cases xs with
      | nil => exact hts
      | cons x xs =>
        simp only [decodeL] at hts ⊢
        cases hx : decodeV fuel h x with
        | none => rw [hx] at hts; simp at hts
        | some t1 =>
          cases hxs : decodeL fuel h xs with
          | none => rw [hx, hxs] at hts; simp at hts
          | some ts1 =>
            rw [hx, hxs] at hts
            rw [ihv h x t1 hx, ihl h xs ts1 hxs]
            exact hts
    · intro h kvs fs hfs
      cases kvs with
      | nil => exact hfs
      | cons kv rest =>
        simp only [decodeF] at hfs ⊢
        cases hx : decodeV fuel h kv.2 with
        | none => rw [hx] at hfs; simp at hfs
        | some t1 =>
          cases hrest : decodeF fuel h rest with
          | none => rw [hx, hrest] at hfs; simp at hfs
          | some fs1 =>
            rw [hx, hrest] at hfs
            rw [ihv h kv.2 t1 hx, ihf h rest fs1 hrest]
            exact hfs

/-- Every reference in the value is at or beyond address `n`. -/
def valGE (n : Nat) : HVal → Prop
  | .ref a => n ≤ a
  | _ => True

/-- Every reference stored in the cell is at or beyond address `n`. -/
def cellGE (n : Nat) : HCell → Prop
  | .arrC xs => ∀ v ∈ xs, valGE n v
  | .objC kvs => ∀ kv ∈ kvs, valGE n kv.2

theorem valGE_mono {m n : Nat} (hmn : m ≤ n) : ∀ v, valGE n v → valGE m v := by
  intro v
  cases v <;> simp [valGE] <;> omega

theorem cellGE_mono {m n : Nat} (hmn : m ≤ n) : ∀ c, cellGE n c → cellGE m c := by
  intro c hc
  cases c with
  | arrC xs => exact fun v hv => valGE_mono hmn v (hc v hv)
  | objC kvs => exact fun kv hkv => valGE_mono hmn kv.2 (hc kv hkv)

/-- Resolution of a well-formed (decodable) value yields a structure
that is fresh for the input heap: its top-level reference and every
reference stored in any newly allocated cell point at or beyond the old
heap's end, so the result aliases no pre-existing array or object at
any level. -/
theorem resolveH_fresh (cfgV : HVal) :
    ∀ fuel : Nat,
      (∀ (h : Heap) (v : HVal) (t : JValue), decodeV fuel h v = some t →
        valGE h.length (resolveHV cfgV fuel h v).2
        ∧ (∀ j c, h.length ≤ j → ((resolveHV cfgV fuel h v).1)[j]? = some c →
            cellGE h.length c))
      ∧ (∀ (h : Heap) (xs : List HVal) (ts : JItems), decodeL fuel h xs = some ts →
        (∀ y ∈ (resolveHL cfgV fuel h xs).2, valGE h.length y)
        ∧ (∀ j c, h.length ≤ j → ((resolveHL cfgV fuel h xs).1)[j]? = some c →
            cellGE h.length c))
      ∧ (∀ (h : Heap) (kvs : List (String × HVal)) (fs : JFields),
          decodeF fuel h kvs = some fs →
        (∀ kv ∈ (resolveHF cfgV fuel h kvs).2, valGE h.length kv.2)
        ∧ (∀ j c, h.length ≤ j → ((resolveHF cfgV fuel h kvs).1)[j]? = some c →
            cellGE h.length c)) := by
  intro fuel
  induction fuel with
  | zero =>
    refine ⟨?_, ?_, ?_⟩
    · intro h v t ht
      simp [decodeV] at ht
    · intro h xs ts ht
      simp [decodeL] at ht
    · intro h kvs fs ht
      simp [decodeF] at ht
  | succ fuel ih =>
    obtain ⟨ihv, ihl, ihf⟩ := ih
    obtain ⟨extV, extL, extF⟩ := resolveH_extends cfgV fuel
    refine ⟨?_, ?_, ?_⟩
    · intro h v t ht
      cases v with
      | str s =>
        refine ⟨trivial, ?_⟩
        intro j c hj hc
        simp only [resolveHV] at hc
        rw [List.getElem?_eq_none (by omega)] at hc
        cases hc
      | num n =>
        refine ⟨trivial, ?_⟩
        intro j c hj hc
        simp only [resolveHV] at hc
        rw [List.getElem?_eq_none (by omega)] at hc
        cases hc
      | bool b =>
        refine ⟨trivial, ?_⟩
        intro j c hj hc
        simp only [resolveHV] at hc
        rw [List.getElem?_eq_none (by omega)] at hc
        cases hc
      | null =>
        refine ⟨trivial, ?_⟩
        intro j c hj hc
        simp only [resolveHV] at hc
        rw [List.getElem?_eq_none (by omega)] at hc
        cases hc
      | ref a =>
        simp only [decodeV] at ht
        cases hcell : h[a]? with
        | none => rw [hcell] at ht; simp at ht
        | some c0 =>
          cases c0 with
          | arrC xs =>
            simp only [hcell] at ht
            cases hd : decodeL fuel h xs with
            | none => rw [hd] at ht; simp at ht
            | some ts =>
              obtain ⟨hys, hcells⟩ := ihl h xs ts hd
              obtain ⟨ext, hext⟩ := extL h xs
              have hlen : h.length ≤ (resolveHL cfgV fuel h xs).1.length := by
                rw [hext]
                simp
              constructor
              · simp only [resolveHV, hcell, valGE]
                exact hlen
              · intro j c hj hjc
                simp only [resolveHV, hcell] at hjc
                by_cases hjl : j < (resolveHL cfgV fuel h xs).1.length
                · rw [List.getElem?_append_left hjl] at hjc
                  exact hcells j c hj hjc
                · rw [List.getElem?_append_right (by omega)] at hjc
                  have hj0 : j - (resolveHL cfgV fuel h xs).1.length = 0 := by
                    by_contra hne
                    rw [List.getElem?_eq_none (by simp; omega)] at hjc
                    cases hjc
                  rw [hj0] at hjc
                  simp at hjc
                  rw [← hjc]
                  exact fun y hy => hys y hy
          | objC kvs =>
            simp only [hcell] at ht
            cases hd : decodeF fuel h kvs with
            | none => rw [hd] at ht; simp at ht
            | some fs =>
              obtain ⟨hys, hcells⟩ := ihf h kvs fs hd
              obtain ⟨ext, hext⟩ := extF h kvs
              have hlen : h.length ≤ (resolveHF cfgV fuel h kvs).1.length := by
                rw [hext]
                simp
              constructor
              · simp only [resolveHV, hcell, valGE]
                exact hlen
              · intro j c hj hjc
                simp only [resolveHV, hcell] at hjc
                by_cases hjl : j < (resolveHF cfgV fuel h kvs).1.length
                · rw [List.getElem?_append_left hjl] at hjc
                  exact hcells j c hj hjc
                · rw [List.getElem?_append_right (by omega)] at hjc
                  have hj0 : j - (resolveHF cfgV fuel h kvs).1.length = 0 := by
                    by_contra hne
                    rw [List.getElem?_eq_none (by simp; omega)] at hjc
                    cases hjc
                  rw [hj0] at hjc
                  simp at hjc
                  rw [← hjc]
                  exact fun kv hkv => hys kv hkv
    · intro h xs ts hts
      cases xs with
      | nil =>
        refine ⟨by simp [resolveHL], ?_⟩
        intro j c hj hc
        simp only [resolveHL] at hc
        rw [List.getElem?_eq_none (by omega)] at hc
        cases hc
      | cons x xs =>
        simp only [decodeL] at hts
        cases hx : decodeV fuel h x with
        | none => rw [hx] at hts; simp at hts
        | some t1 =>
          cases hxs : decodeL fuel h xs with
          | none => rw [hx, hxs] at hts; simp at hts
          | some ts1 =>
            obtain ⟨hv1, hc1⟩ := ihv h x t1 hx
            obtain ⟨e₁, he₁⟩ := extV h x
            have hlen1 : h.length ≤ (resolveHV cfgV fuel h x).1.length := by
              rw [he₁]
              simp
            have hdec1 : decodeL fuel ((resolveHV cfgV fuel h x).1) xs = some ts1 := by
              rw [he₁]
              exact (decode_extends e₁ fuel).2.1 h xs ts1 hxs
            obtain ⟨hv2, hc2⟩ := ihl ((resolveHV cfgV fuel h x).1) xs ts1 hdec1
            constructor
            · intro y hy
              simp only [resolveHL] at hy
              cases List.mem_cons.mp hy with
              | inl heq =>
                rw [heq]
                exact hv1
              | inr hmem => exact valGE_mono hlen1 y (hv2 y hmem)
            · intro j c hj hjc
              simp only [resolveHL] at hjc
              by_cases hjl : j < (resolveHV cfgV fuel h x).1.length
              · obtain ⟨e₂, he₂⟩ := extL ((resolveHV cfgV fuel h x).1) xs
                rw [he₂, List.getElem?_append_left hjl] at hjc
                exact hc1 j c hj hjc
              · exact cellGE_mono hlen1 c (hc2 j c (by omega) hjc)
    · intro h kvs fs hfs
      cases kvs with
      | nil =>
        refine ⟨by simp [resolveHF], ?_⟩
        intro j c hj hc
        simp only [resolveHF] at hc
        rw [List.getElem?_eq_none (by omega)] at hc
        cases hc
      | cons kv rest =>
        simp only [decodeF] at hfs
        cases hx : decodeV fuel h kv.2 with
        | none => rw [hx] at hfs; simp at hfs
        | some t1 =>
          cases hrest : decodeF fuel h rest with
          | none => rw [hx, hrest] at hfs; simp at hfs
          | some fs1 =>
            obtain ⟨hv1, hc1⟩ := ihv h kv.2 t1 hx
            obtain ⟨e₁, he₁⟩ := extV h kv.2
            have hlen1 : h.length ≤ (resolveHV cfgV fuel h kv.2).1.length := by
              rw [he₁]
              simp
            have hdec1 : decodeF fuel ((resolveHV cfgV fuel h kv.2).1) rest = some fs1 := by
              rw [he₁]
              exact (decode_extends e₁ fuel).2.2 h rest fs1 hrest
            obtain ⟨hv2, hc2⟩ := ihf ((resolveHV cfgV fuel h kv.2).1) rest fs1 hdec1
            constructor
            · intro y hy
              simp only [resolveHF] at hy
              cases List.mem_cons.mp hy with
              | inl heq =>
                rw [heq]
                exact hv1
              | inr hmem => exact valGE_mono hlen1 y.2 (hv2 y hmem)
            · intro j c hj hjc
              simp only [resolveHF] at hjc
              by_cases hjl : j < (resolveHV cfgV fuel h kv.2).1.length
              · obtain ⟨e₂, he₂⟩ := extF ((resolveHV cfgV fuel h kv.2).1) rest
                rw [he₂, List.getElem?_append_left hjl] at hjc
                exact hc1 j c hj hjc
              · exact cellGE_mono hlen1 c (hc2 j c (by omega) hjc)

/-- C9: `resolveParams` never mutates its input.  In the heap model,
resolution only reads existing cells and appends new ones, so every
pre-existing cell — the original Task Definition's `params` structure
and the configuration document both live in the input heap — is
unchanged after resolution; and on any well-formed input the resolved
structure is entirely fresh: its top-level reference and every reference
reachable through newly allocated cells lie beyond the old heap, i.e.
new objects and arrays at every recursed level. -/
theorem c9_copy_on_resolve :
    (∀ (cfgV : HVal) (fuel : Nat) (h : Heap) (v : HVal) (i : Nat), i < h.length →
        ((resolveHV cfgV fuel h v).1)[i]? = h[i]?)
    ∧ (∀ (cfgV : HVal) (fuel : Nat) (h : Heap) (v : HVal) (t : JValue),
        decodeV fuel h v = some t →
        valGE h.length (resolveHV cfgV fuel h v).2
        ∧ (∀ j c, h.length ≤ j → ((resolveHV cfgV fuel h v).1)[j]? = some c →
            cellGE h.length c)) := by
  constructor
  · intro cfgV fuel h v i hi
    obtain ⟨ext, hext⟩ := (resolveH_extends cfgV fuel).1 h v
    rw [hext, List.getElem?_append_left hi]
  · intro cfgV fuel h v t ht
    exact (resolveH_fresh cfgV fuel).1 h v t ht

/-- Witness for C9: resolving a one-element array stored at address 0
leaves the original cell unchanged. -/
theorem c9_copy_on_resolve_witness :
    ((resolveHV .null 3 [HCell.arrC [HVal.str "a"]] (.ref 0)).1)[0]? =
      ([HCell.arrC [HVal.str "a"]] : Heap)[0]? :=
  c9_copy_on_resolve.1 .null 3 [HCell.arrC [HVal.str "a"]] (.ref 0) 0 (by decide)

end GenBoil
